import Mathlib

/-!
Verification of the blink animation engine (src/blink.py).

The buffer is modelled as a `List Nat` of packed 24-bit color values, as stored
by `TerminalStrip` (a Python `list[int]` subclass).  Single-position reads and
writes follow Python list semantics: an index `i` with `0 ≤ i < len` is direct,
an index with `-len ≤ i < 0` aliases position `len + i`, and anything else
raises `IndexError`.  Errors are modelled with `Option`/`Except`; Python's
`RecursionError` (the only way the recursive `quicksort` can fail to come back
besides an `IndexError`) is modelled by a fuel parameter on the recursion.
Randomness (`random.randint`, used for pivot selection and random colors) is
modelled by an arbitrary stream `Nat → Nat` of draws together with a counter,
so that universally quantified theorems cover every possible sequence of
draws.  Floating point arithmetic in `RGB.hsi` is modelled over `ℚ`; every
operation the settled claims touch is exact in IEEE double precision
(integer-valued sums, divisions with exact results, and literal constants), so
the rational model agrees with the Python float computation on those claims.
-/

/-- Errors a buffer operation can raise: `indexError` models Python's
`IndexError`, `recursionLimit` models exhausting the recursion fuel
(Python's `RecursionError`). -/
inductive PyErr where
  | indexError
  | recursionLimit
deriving DecidableEq

/-- Python list read `l[i]`: direct for `0 ≤ i < len`, wrap-around for
`-len ≤ i < 0`, `IndexError` (here `none`) otherwise.  This is the indexing
behaviour of `TerminalStrip`, a `list[int]` subclass. -/
def pyGet (l : List Nat) (i : Int) : Option Nat :=
  if 0 ≤ i then l.get? i.toNat
  else if 0 ≤ i + l.length then l.get? (i + l.length).toNat
  else none

/-- Python list write `l[i] = v`, with the same index semantics as `pyGet`. -/
def pySet (l : List Nat) (i : Int) (v : Nat) : Option (List Nat) :=
  if 0 ≤ i then
    if i.toNat < l.length then some (l.set i.toNat v) else none
  else if 0 ≤ i + l.length then some (l.set (i + l.length).toNat v)
  else none

/-- The swap `strip[i], strip[j] = strip[j], strip[i]` from `quicksort`:
both reads happen first, then the write to `i`, then the write to `j`. -/
def pySwap (l : List Nat) (i j : Int) : Option (List Nat) := do
  let vi ← pyGet l i
  let vj ← pyGet l j
  let l2 ← pySet l i vj
  pySet l2 j vi

/-- The `RGB` named tuple: three color channels.  Values built by
`RGB.from_int` always have channels in `[0, 255]`. -/
structure RGB where
  r : Nat
  g : Nat
  b : Nat
deriving DecidableEq

/-- `RGB.from_int`: unpack a packed color, keeping 8 bits per channel. -/
def RGB.from_int (v : Nat) : RGB :=
  { r := (v >>> 16) &&& 0xFF
    g := (v >>> 8) &&& 0xFF
    b := v &&& 0xFF }

/-- `RGB.__int__`: pack the three channels into one integer. -/
def RGB.toInt (c : RGB) : Nat :=
  (c.r <<< 16) ||| (c.g <<< 8) ||| c.b

/-- `RGB.__invert__`: `from_int(0xFFFFFF - int(self))`.  For colors with
channels in `[0, 255]` the Python subtraction never goes negative, so Nat
subtraction is faithful there. -/
def RGB.invert (c : RGB) : RGB :=
  RGB.from_int (0xFFFFFF - c.toInt)

/-- Python float modulo `x % y` (used as `% 6` in `RGB.hsi`):
`x - y * floor (x / y)`. -/
def pyMod (x y : ℚ) : ℚ := x - y * ((Int.floor (x / y) : Int) : ℚ)

/-- `RGB.hsi`, over `ℚ`.  The Python `match max_:` statement tests
`case self.r`, `case self.g`, `case self.b` in that order (value patterns);
the final `case _` raises `AssertionError` and is unreachable because the
maximum of the three channels equals one of them, so it is given an arbitrary
value here. -/
def RGB.hsi (c : RGB) : ℚ × ℚ × ℚ :=
  let max_ : Nat := max c.r (max c.g c.b)
  let min_ : Nat := min c.r (min c.g c.b)
  let intensity : ℚ := ((c.r : ℚ) + (c.g : ℚ) + (c.b : ℚ)) / 3
  let saturation : ℚ := if intensity = 0 then 0 else 1 - (min_ : ℚ) / intensity
  let range_ : ℚ := (max_ : ℚ) - (min_ : ℚ)
  let hue : ℚ :=
    if range_ ≠ 0 then
      if max_ = c.r then pyMod (((c.g : ℚ) - (c.b : ℚ)) / range_) 6
      else if max_ = c.g then ((c.b : ℚ) - (c.r : ℚ)) / range_ + 2
      else if max_ = c.b then ((c.r : ℚ) - (c.g : ℚ)) / range_ + 4
      else 0
    else 0
  (hue, saturation, intensity)

/-- The body of `RGB.random`: keep drawing `randint(0, 0xFFFFFF)` while all
three channels of the current value are below 20.  `draws` is the stream of
random draws, `k` the position in the stream (returned alongside the result
so sequential callers consume disjoint parts of the stream), `fuel` bounds
the number of redraws. -/
def randomLoop (draws : Nat → Nat) : Nat → Nat → RGB → Option (RGB × Nat)
  | 0, k, value =>
    if value.r < 20 ∧ value.g < 20 ∧ value.b < 20 then none
    else some (value, k)
  | f + 1, k, value =>
    if value.r < 20 ∧ value.g < 20 ∧ value.b < 20 then
      randomLoop draws f (k + 1) (RGB.from_int (draws k % 0x1000000))
    else some (value, k)

/-- `RGB.random` with explicit draw stream, stream position and fuel. -/
def randomK (draws : Nat → Nat) (fuel k : Nat) : Option (RGB × Nat) :=
  randomLoop draws fuel k (RGB.from_int 0)

/-- `RGB.random()` as called with a fresh stream. -/
def RGB.random (draws : Nat → Nat) (fuel : Nat) : Option RGB :=
  (randomK draws fuel 0).map Prod.fst

/-- A color is a possible return value of `RGB.random` if some sequence of
draws (and enough fuel) produces it. -/
def canReturn (c : RGB) : Prop :=
  ∃ draws fuel, RGB.random draws fuel = some c

/-- `wipe`: set every position to `color` (then render once). -/
def wipe (l : List Nat) (color : Nat) : List Nat :=
  List.replicate l.length color

/-- `_close_in`: move one channel one unit toward its target. -/
def close_in (from_ to_ : Nat) : Nat :=
  if from_ = to_ then to_ else if from_ < to_ then from_ + 1 else from_ - 1

/-- One step of `slow_transition`: every channel moves one unit closer. -/
def stepColor (c t : RGB) : RGB :=
  { r := close_in c.r t.r, g := close_in c.g t.g, b := close_in c.b t.b }

/-- The maximum over the three channels of the absolute channel difference. -/
def maxChannelDist (c t : RGB) : Nat :=
  max (Nat.dist c.r t.r) (max (Nat.dist c.g t.g) (Nat.dist c.b t.b))

/-- The colors the `slow_transition` while-loop paints after the initial
wipe, in order, ending with the target. -/
def transitionColors (c t : RGB) : List RGB :=
  if h : c = t then []
  else stepColor c t :: transitionColors (stepColor c t) t
termination_by maxChannelDist c t
decreasing_by
  simp only [maxChannelDist, stepColor]
  have hr : Nat.dist (close_in c.r t.r) t.r = Nat.dist c.r t.r - 1 := by
    simp only [close_in, Nat.dist]; split_ifs <;> omega
  have hg : Nat.dist (close_in c.g t.g) t.g = Nat.dist c.g t.g - 1 := by
    simp only [close_in, Nat.dist]; split_ifs <;> omega
  have hb : Nat.dist (close_in c.b t.b) t.b = Nat.dist c.b t.b - 1 := by
    simp only [close_in, Nat.dist]; split_ifs <;> omega
  have hne : Nat.dist c.r t.r ≠ 0 ∨ Nat.dist c.g t.g ≠ 0 ∨ Nat.dist c.b t.b ≠ 0 := by
    by_contra hc
    push_neg at hc
    apply h
    obtain ⟨c1, c2, c3⟩ := c
    obtain ⟨t1, t2, t3⟩ := t
    simp only [Nat.dist] at hc
    simp only [RGB.mk.injEq]
    omega
  rw [hr, hg, hb]
  omega

/-- `slow_transition(strip, c, c_next)` with both colors given: the sequence
of buffer states rendered, one per `wipe` (the initial fill with `c`, then
one per loop iteration). -/
def slow_transition (l : List Nat) (c c_next : RGB) : List (List Nat) :=
  (c :: transitionColors c c_next).map (fun col => wipe l col.toInt)

/-- The resolution of `slow_transition`'s defaulted first color:
`c = c or RGB.random()` (an `RGB` value is a nonempty tuple, hence truthy,
so `or` only replaces `None`). -/
def slow_transition_start (c : Option RGB) (draws : Nat → Nat) (fuel : Nat) :
    Option RGB :=
  match c with
  | some c0 => some c0
  | none => RGB.random draws fuel

/-- `shuffle`: the fresh list of `n` independently random packed colors
assigned to the whole buffer by `strip[:] = [int(RGB.random()) for _ ...]`. -/
def randomPixels (draws : Nat → Nat) (fuel : Nat) : Nat → Nat → Option (List Nat × Nat)
  | k, 0 => some ([], k)
  | k, n + 1 =>
    match randomK draws fuel k with
    | none => none
    | some (c, k2) =>
      match randomPixels draws fuel k2 n with
      | none => none
      | some (vs, k3) => some (c.toInt :: vs, k3)

/-- `shuffle(strip)`: replace the whole buffer with random colors. -/
def shuffle (draws : Nat → Nat) (fuel : Nat) (l : List Nat) : Option (List Nat) :=
  (randomPixels draws fuel 0 l.length).map Prod.fst

/-- The loop of `random_rain` when `pixels` is `None`: visit the positions in
the given order, setting each to a fresh random color.  The positions come
from `random.shuffle(list(range(len(strip))))`, i.e. a permutation of
`range n`, which theorems state as a hypothesis. -/
def random_rain_aux (draws : Nat → Nat) (fuel : Nat) :
    Nat → List Nat → List Nat → Option (List Nat × Nat)
  | k, l, [] => some (l, k)
  | k, l, pos :: rest =>
    match randomK draws fuel k with
    | none => none
    | some (c, k2) => random_rain_aux draws fuel k2 (l.set pos c.toInt) rest

/-- `random_rain(strip)` with no explicit pixels, `order` being the shuffled
position list. -/
def random_rain (draws : Nat → Nat) (fuel : Nat) (l : List Nat) (order : List Nat) :
    Option (List Nat) :=
  (random_rain_aux draws fuel 0 l order).map Prod.fst

/-- The scan `while lt_func(RGB.from_int(strip[i]), pivot): i += 1` (and its
mirror): advance while the predicate holds on the value read at `i`, raising
`IndexError` when a read leaves the valid range.  The returned index carries
the proof that the scan only moves forward, which bounds the partition loop's
measure. -/
def scanUp (l : List Nat) (pred : Nat → Bool) (i : Int) :
    Except PyErr { r : Int // i ≤ r } :=
  match h : pyGet l i with
  | none => .error .indexError
  | some v =>
    if pred v then
      match scanUp l pred (i + 1) with
      | .error e => .error e
      | .ok r => .ok ⟨r.1, le_trans (by omega) r.2⟩
    else .ok ⟨i, le_refl i⟩
termination_by ((l.length : Int) - i).toNat
decreasing_by
  have hb : i < (l.length : Int) := by
    by_cases h0 : 0 ≤ i
    · simp only [pyGet, if_pos h0] at h
      by_contra hc
      rw [List.get?_eq_none.mpr (by omega)] at h
      exact Option.noConfusion h
    · omega
  omega

/-- The downward scan `while lt_func(pivot, RGB.from_int(strip[j])): j -= 1`. -/
def scanDown (l : List Nat) (pred : Nat → Bool) (j : Int) :
    Except PyErr { r : Int // r ≤ j } :=
  match h : pyGet l j with
  | none => .error .indexError
  | some v =>
    if pred v then
      match scanDown l pred (j - 1) with
      | .error e => .error e
      | .ok r => .ok ⟨r.1, le_trans r.2 (by omega)⟩
    else .ok ⟨j, le_refl j⟩
termination_by (j + (l.length : Int) + 1).toNat
decreasing_by
  have hb : 0 ≤ j + (l.length : Int) := by
    by_cases h0 : 0 ≤ j
    · omega
    · simp only [pyGet, if_neg h0] at h
      by_cases h1 : 0 ≤ j + (l.length : Int)
      · omega
      · rw [if_neg h1] at h
        exact Option.noConfusion h
  omega

/-- The partition loop `while i <= j: ...` of `quicksort`: scan up, scan
down, and if the pointers have not crossed, swap, then continue with
`i + 1, j - 1`.  Returns the buffer and the final pointer values. -/
def ploop (l : List Nat) (lt : RGB → RGB → Bool) (p : RGB) (i j : Int) :
    Except PyErr (List Nat × Int × Int) :=
  if hij : i ≤ j then
    match scanUp l (fun v => lt (RGB.from_int v) p) i with
    | .error e => .error e
    | .ok i2 =>
      match scanDown l (fun v => lt p (RGB.from_int v)) j with
      | .error e => .error e
      | .ok j2 =>
        if hij2 : i2.1 ≤ j2.1 then
          match pySwap l i2.1 j2.1 with
          | none => .error .indexError
          | some l2 => ploop l2 lt p (i2.1 + 1) (j2.1 - 1)
        else .ok (l, i2.1, j2.1)
  else .ok (l, i, j)
termination_by (j - i + 2).toNat
decreasing_by
  have h1 := i2.2
  have h2 := j2.2
  omega

/-- `quicksort(strip, lt_func, from_index, to_index)`.  The pivot position is
`randint(from_index, to_index)`, modelled as `from_index + draw % size`; `k`
is the position in the draw stream, threaded through the recursion so the two
recursive calls consume disjoint draws, exactly as sequential calls to
`random.randint` do. -/
def quicksortAux (lt : RGB → RGB → Bool) (rnd : Nat → Nat) :
    Nat → List Nat → Nat → Int → Int → Except PyErr (List Nat × Nat)
  | 0, _, _, _, _ => .error .recursionLimit
  | fuel + 1, l, k, from_index, to_index =>
    if from_index ≥ to_index then .ok (l, k)
    else
      match pyGet l
        (from_index + ((rnd k % (to_index - from_index + 1).toNat : Nat) : Int)) with
      | none => .error .indexError
      | some pv =>
        match ploop l lt (RGB.from_int pv) from_index to_index with
        | .error e => .error e
        | .ok (l2, i, j) =>
          match quicksortAux lt rnd fuel l2 (k + 1) from_index j with
          | .error e => .error e
          | .ok (l3, k3) => quicksortAux lt rnd fuel l3 k3 i to_index

/-- `quicksort(strip, lt_func)` over the whole buffer:
`from_index = 0`, `to_index = len(strip) - 1`. -/
def quicksort (fuel : Nat) (l : List Nat) (lt : RGB → RGB → Bool)
    (rnd : Nat → Nat) : Except PyErr (List Nat) :=
  (quicksortAux lt rnd fuel l 0 0 ((l.length : Int) - 1)).map Prod.fst

/-- The packed-value ascending comparator `lambda x, y: int(x) < int(y)`. -/
def packedLt (a b : RGB) : Bool := decide (a.toInt < b.toInt)

/-- The constant-false comparator `lambda x, y: False`. -/
def constFalse (_ _ : RGB) : Bool := false

/-- A strict weak ordering given as a boolean comparator: irreflexive,
transitive, with transitive incomparability. -/
def IsSWO (lt : RGB → RGB → Bool) : Prop :=
  (∀ a, lt a a = false) ∧
  (∀ a b c, lt a b = true → lt b c = true → lt a c = true) ∧
  (∀ a b c, lt a b = false → lt b a = false → lt b c = false → lt c b = false →
    lt a c = false ∧ lt c a = false)

/-- The contiguous segment of positions `a..b` (inclusive) of a buffer. -/
def seg (l : List Nat) (a b : Nat) : List Nat :=
  (l.drop a).take (b + 1 - a)

/-! ### Packing and unpacking (claims C7, C8) -/

theorem from_int_eq_divmod (v : Nat) :
    RGB.from_int v = { r := v / 65536 % 256, g := v / 256 % 256, b := v % 256 } := by
  have h255 : (0xFF : Nat) = 2 ^ 8 - 1 := by norm_num
  simp only [RGB.from_int, h255, Nat.and_pow_two_sub_one_eq_mod,
    Nat.shiftRight_eq_div_pow]

theorem toInt_eq_arith (c : RGB) (hg : c.g ≤ 255) (hb : c.b ≤ 255) :
    c.toInt = c.r * 65536 + c.g * 256 + c.b := by
  simp only [RGB.toInt, Nat.shiftLeft_eq]
  have h1 : c.r * 2 ^ 16 ||| c.g * 2 ^ 8 = c.r * 2 ^ 16 + c.g * 2 ^ 8 := by
    rw [Nat.mul_comm (c.r) (2 ^ 16), ← Nat.mul_add_lt_is_or (by omega) c.r]
  have h2 : (c.r * 2 ^ 16 + c.g * 2 ^ 8) ||| c.b
      = c.r * 2 ^ 16 + c.g * 2 ^ 8 + c.b := by
    have hc : c.r * 2 ^ 16 + c.g * 2 ^ 8 = 2 ^ 8 * (c.r * 2 ^ 8 + c.g) := by ring
    rw [hc, ← Nat.mul_add_lt_is_or (by omega) (c.r * 2 ^ 8 + c.g)]
  rw [h1, h2]
  ring

theorem toInt_from_int (v : Nat) (h : v ≤ 0xFFFFFF) : (RGB.from_int v).toInt = v := by
  rw [from_int_eq_divmod,
    toInt_eq_arith _ (show v / 256 % 256 ≤ 255 by omega) (show v % 256 ≤ 255 by omega)]
  show v / 65536 % 256 * 65536 + v / 256 % 256 * 256 + v % 256 = v
  omega

theorem from_int_channels_le (v : Nat) :
    (RGB.from_int v).r ≤ 255 ∧ (RGB.from_int v).g ≤ 255 ∧ (RGB.from_int v).b ≤ 255 := by
  rw [from_int_eq_divmod]
  refine ⟨show v / 65536 % 256 ≤ 255 by omega, show v / 256 % 256 ≤ 255 by omega,
    show v % 256 ≤ 255 by omega⟩

theorem from_int_toInt (c : RGB) (hr : c.r ≤ 255) (hg : c.g ≤ 255) (hb : c.b ≤ 255) :
    RGB.from_int c.toInt = c := by
  rw [toInt_eq_arith c hg hb, from_int_eq_divmod]
  obtain ⟨r, g, b⟩ := c
  simp only at hr hg hb ⊢
  simp only [RGB.mk.injEq]
  refine ⟨?_, ?_, ?_⟩ <;> omega

theorem toInt_le (c : RGB) (hr : c.r ≤ 255) (hg : c.g ≤ 255) (hb : c.b ≤ 255) :
    c.toInt ≤ 0xFFFFFF := by
  rw [toInt_eq_arith c hg hb]
  omega

/-- Claim C7: packing and unpacking are exact inverses: for every integer `v`
in `[0, 0xFFFFFF]`, `to_packed (from_packed v) = v`. -/
theorem packing_roundtrip (v : Nat) (h : v ≤ 0xFFFFFF) :
    (RGB.from_int v).toInt = v :=
  toInt_from_int v h

theorem packing_roundtrip_witness :
    0xABCDEF ≤ 0xFFFFFF ∧ (RGB.from_int 0xABCDEF).toInt = 0xABCDEF :=
  ⟨by norm_num, packing_roundtrip 0xABCDEF (by norm_num)⟩

/-- Claim C8: for every color with channels in `[0, 255]`, inversion is an
involution, and the packed value of the inverse is the complement
`0xFFFFFF - packed value`. -/
theorem invert_involution (c : RGB) (hr : c.r ≤ 255) (hg : c.g ≤ 255)
    (hb : c.b ≤ 255) :
    c.invert.invert = c ∧ c.invert.toInt = 0xFFFFFF - c.toInt := by
  have hle : c.toInt ≤ 0xFFFFFF := toInt_le c hr hg hb
  have h2 : c.invert.toInt = 0xFFFFFF - c.toInt := by
    unfold RGB.invert
    exact toInt_from_int _ (by omega)
  refine ⟨?_, h2⟩
  show RGB.from_int (0xFFFFFF - c.invert.toInt) = c
  rw [h2, show 0xFFFFFF - (0xFFFFFF - c.toInt) = c.toInt by omega,
    from_int_toInt c hr hg hb]

theorem invert_involution_witness :
    (RGB.from_int 0xABCDEF).invert.invert = RGB.from_int 0xABCDEF ∧
      (RGB.from_int 0xABCDEF).invert.toInt = 0xFFFFFF - (RGB.from_int 0xABCDEF).toInt :=
  invert_involution (RGB.from_int 0xABCDEF)
    (from_int_channels_le 0xABCDEF).1
    (from_int_channels_le 0xABCDEF).2.1
    (from_int_channels_le 0xABCDEF).2.2

/-! ### HSI edge cases (claim C6) -/

/-- Claim C6: the achromatic case (max channel = min channel) yields hue 0;
zero intensity yields saturation 0; and the color unpacked from `0xFF00FF`
has HSI exactly `(5, 1, 170)`. -/
theorem hsi_edge_cases :
    (∀ c : RGB, max c.r (max c.g c.b) = min c.r (min c.g c.b) →
      (RGB.hsi c).1 = 0) ∧
    (∀ c : RGB, (RGB.hsi c).2.2 = 0 → (RGB.hsi c).2.1 = 0) ∧
    RGB.hsi (RGB.from_int 0xFF00FF) = (5, 1, 170) := by
  refine ⟨?_, ?_, ?_⟩
  · intro c h
    simp only [RGB.hsi]
    rw [h]
    simp
  · intro c h
    simp only [RGB.hsi] at h ⊢
    rw [if_pos h]
  · have h : RGB.from_int 0xFF00FF = { r := 255, g := 0, b := 255 } := by decide
    rw [h]
    simp only [RGB.hsi]
    norm_num [pyMod]

theorem hsi_edge_cases_witness :
    (RGB.hsi { r := 9, g := 9, b := 9 }).1 = 0 ∧
      (RGB.hsi { r := 0, g := 0, b := 0 }).2.1 = 0 :=
  ⟨hsi_edge_cases.1 { r := 9, g := 9, b := 9 } (by norm_num),
   hsi_edge_cases.2.1 { r := 0, g := 0, b := 0 } (by norm_num [RGB.hsi])⟩

/-! ### Buffer index semantics (claim C9) -/

/-- Claim C9 counterexample: with a buffer of length 1, index `-1` is outside
`[0, 1)`, yet both the read and the write at `-1` succeed silently (Python's
negative-index aliasing in the `list` base class of `TerminalStrip`) instead
of failing loudly. -/
theorem negative_index_silently_accepted :
    pyGet [5] (-1) = some 5 ∧ pySet [5] (-1) 9 = some [9] := by decide

/-- Claim C9 (amended): single-position reads and writes raise `IndexError`
exactly for indices `i ≥ N` or `i < -N`; indices in `[-N, -1]` are silently
accepted as aliases of `N + i` (Python list semantics), so only indices
outside `[-N, N)` fail loudly. -/
theorem index_semantics (l : List Nat) (i : Int) (v : Nat) :
    (pyGet l i = none ↔ (i < -(l.length : Int) ∨ (l.length : Int) ≤ i)) ∧
    (pySet l i v = none ↔ (i < -(l.length : Int) ∨ (l.length : Int) ≤ i)) ∧
    (-(l.length : Int) ≤ i → i < 0 → pyGet l i = l.get? (i + l.length).toNat) := by
  refine ⟨?_, ?_, ?_⟩
  · unfold pyGet
    split_ifs with h0 h1
    · rw [List.get?_eq_none]
      omega
    · rw [List.get?_eq_none]
      omega
    · exact ⟨fun _ => by omega, fun _ => rfl⟩
  · unfold pySet
    by_cases h0 : 0 ≤ i
    · rw [if_pos h0]
      by_cases h1 : i.toNat < l.length
      · rw [if_pos h1]
        exact ⟨fun h => Option.noConfusion h, fun h => absurd h (by omega)⟩
      · rw [if_neg h1]
        exact ⟨fun _ => by omega, fun _ => rfl⟩
    · rw [if_neg h0]
      by_cases h2 : 0 ≤ i + (l.length : Int)
      · rw [if_pos h2]
        exact ⟨fun h => Option.noConfusion h, fun h => absurd h (by omega)⟩
      · rw [if_neg h2]
        exact ⟨fun _ => by omega, fun _ => rfl⟩
  · intro h1 h2
    unfold pyGet
    rw [if_neg (by omega), if_pos (by omega)]

theorem index_semantics_witness :
    pyGet [5] (-1) = [5].get? ((-1 + (([5] : List Nat).length : Int)).toNat) :=
  (index_semantics [5] (-1) 0).2.2 (by norm_num) (by norm_num)

/-! ### RGB.random support (claims C4, C10) -/

theorem randomLoop_floor (draws : Nat → Nat) :
    ∀ fuel k value c k2, randomLoop draws fuel k value = some (c, k2) →
      ¬(c.r < 20 ∧ c.g < 20 ∧ c.b < 20) := by
  intro fuel
  induction fuel with
  | zero =>
    intro k value c k2 h
    by_cases hc : value.r < 20 ∧ value.g < 20 ∧ value.b < 20
    · rw [randomLoop, if_pos hc] at h
      exact Option.noConfusion h
    · rw [randomLoop, if_neg hc] at h
      simp only [Option.some.injEq, Prod.mk.injEq] at h
      obtain ⟨h1, _⟩ := h
      subst h1
      exact hc
  | succ f IH =>
    intro k value c k2 h
    by_cases hc : value.r < 20 ∧ value.g < 20 ∧ value.b < 20
    · rw [randomLoop, if_pos hc] at h
      exact IH _ _ _ _ h
    · rw [randomLoop, if_neg hc] at h
      simp only [Option.some.injEq, Prod.mk.injEq] at h
      obtain ⟨h1, _⟩ := h
      subst h1
      exact hc

theorem randomLoop_image (draws : Nat → Nat) :
    ∀ fuel k value c k2, (∃ w, value = RGB.from_int w) →
      randomLoop draws fuel k value = some (c, k2) → ∃ w, c = RGB.from_int w := by
  intro fuel
  induction fuel with
  | zero =>
    intro k value c k2 him h
    by_cases hc : value.r < 20 ∧ value.g < 20 ∧ value.b < 20
    · rw [randomLoop, if_pos hc] at h
      exact Option.noConfusion h
    · rw [randomLoop, if_neg hc] at h
      simp only [Option.some.injEq, Prod.mk.injEq] at h
      obtain ⟨h1, _⟩ := h
      subst h1
      exact him
  | succ f IH =>
    intro k value c k2 him h
    by_cases hc : value.r < 20 ∧ value.g < 20 ∧ value.b < 20
    · rw [randomLoop, if_pos hc] at h
      exact IH _ _ _ _ ⟨draws k % 0x1000000, rfl⟩ h
    · rw [randomLoop, if_neg hc] at h
      simp only [Option.some.injEq, Prod.mk.injEq] at h
      obtain ⟨h1, _⟩ := h
      subst h1
      exact him

theorem randomK_spec (draws : Nat → Nat) (fuel k : Nat) (c : RGB) (k2 : Nat)
    (h : randomK draws fuel k = some (c, k2)) :
    (20 ≤ c.r ∨ 20 ≤ c.g ∨ 20 ≤ c.b) ∧ c.r ≤ 255 ∧ c.g ≤ 255 ∧ c.b ≤ 255 := by
  have hfl := randomLoop_floor draws fuel k _ _ _ h
  have him := randomLoop_image draws fuel k _ _ _ ⟨0, rfl⟩ h
  obtain ⟨w, rfl⟩ := him
  have hle := from_int_channels_le w
  exact ⟨by omega, hle⟩

/-- Claim C4 counterexample: black (the color unpacked from 0) is never a
return value of `RGB.random`, for any sequence of draws, so `random` is not
uniform over all 2^24 packed values and not every value is possible. -/
theorem random_never_black : ¬ canReturn (RGB.from_int 0) := by
  rintro ⟨draws, fuel, h⟩
  unfold RGB.random randomK at h
  obtain ⟨⟨c, k2⟩, hl, hc⟩ := Option.map_eq_some'.mp h
  have hfl := randomLoop_floor draws fuel 0 _ _ _ hl
  have hce : c = RGB.from_int 0 := hc
  rw [hce] at hfl
  exact hfl (by decide)

/-- Claim C4 (amended): `RGB.random` is a rejection sampler over the uniform
draws on `[0, 0xFFFFFF]`: a packed value in that range is a possible return
value exactly when its color has at least one channel `≥ 20`; values whose
colors have all channels below 20 (in particular black) are never returned. -/
theorem random_support (v : Nat) (hv : v ≤ 0xFFFFFF) :
    canReturn (RGB.from_int v) ↔
      (20 ≤ (RGB.from_int v).r ∨ 20 ≤ (RGB.from_int v).g ∨ 20 ≤ (RGB.from_int v).b) := by
  constructor
  · rintro ⟨draws, fuel, h⟩
    unfold RGB.random randomK at h
    obtain ⟨⟨c, k2⟩, hl, hc⟩ := Option.map_eq_some'.mp h
    have hfl := randomLoop_floor draws fuel 0 _ _ _ hl
    have hce : c = RGB.from_int v := hc
    rw [hce] at hfl
    omega
  · intro hch
    refine ⟨fun _ => v, 1, ?_⟩
    unfold RGB.random randomK
    rw [randomLoop, if_pos (by decide : (RGB.from_int 0).r < 20 ∧
      (RGB.from_int 0).g < 20 ∧ (RGB.from_int 0).b < 20)]
    show (randomLoop (fun _ => v) 0 1 (RGB.from_int (v % 0x1000000))).map Prod.fst
      = some (RGB.from_int v)
    rw [Nat.mod_eq_of_lt (by omega), randomLoop, if_neg (by omega)]
    rfl

theorem random_support_witness : canReturn (RGB.from_int 0xFFFFFF) :=
  (random_support 0xFFFFFF (by norm_num)).mpr (by decide)

theorem randomPixels_floor (draws : Nat → Nat) (fuel : Nat) :
    ∀ n k out k2, randomPixels draws fuel k n = some (out, k2) →
      ∀ x ∈ out, 20 ≤ (RGB.from_int x).r ∨ 20 ≤ (RGB.from_int x).g ∨
        20 ≤ (RGB.from_int x).b := by
  intro n
  induction n with
  | zero =>
    intro k out k2 h x hx
    simp only [randomPixels, Option.some.injEq, Prod.mk.injEq] at h
    obtain ⟨h1, _⟩ := h
    subst h1
    exact absurd hx (List.not_mem_nil x)
  | succ n IH =>
    intro k out k2 h x hx
    simp only [randomPixels] at h
    cases hrk : randomK draws fuel k with
    | none =>
      simp only [hrk] at h
      exact Option.noConfusion h
    | some ck =>
      obtain ⟨c, k3⟩ := ck
      simp only [hrk] at h
      cases hrp : randomPixels draws fuel k3 n with
      | none =>
        simp only [hrp] at h
        exact Option.noConfusion h
      | some vsk =>
        obtain ⟨vs, k4⟩ := vsk
        simp only [hrp, Option.some.injEq, Prod.mk.injEq] at h
        obtain ⟨h1, _⟩ := h
        subst h1
        rcases List.mem_cons.mp hx with hx1 | hx2
        · subst hx1
          have hs := randomK_spec draws fuel k c k3 hrk
          rw [from_int_toInt c hs.2.1 hs.2.2.1 hs.2.2.2]
          exact hs.1
        · exact IH _ _ _ hrp x hx2

theorem rain_aux_spec (draws : Nat → Nat) (fuel : Nat) :
    ∀ ps k l out k2, random_rain_aux draws fuel k l ps = some (out, k2) →
      out.length = l.length ∧
      ∀ m x, out.get? m = some x →
        (20 ≤ (RGB.from_int x).r ∨ 20 ≤ (RGB.from_int x).g ∨
          20 ≤ (RGB.from_int x).b) ∨
        (m ∉ ps ∧ l.get? m = some x) := by
  intro ps
  induction ps with
  | nil =>
    intro k l out k2 h
    simp only [random_rain_aux, Option.some.injEq, Prod.mk.injEq] at h
    obtain ⟨h1, _⟩ := h
    subst h1
    exact ⟨rfl, fun m x hx => Or.inr ⟨List.not_mem_nil m, hx⟩⟩
  | cons pos rest IH =>
    intro k l out k2 h
    simp only [random_rain_aux] at h
    cases hrk : randomK draws fuel k with
    | none =>
      simp only [hrk] at h
      exact Option.noConfusion h
    | some ck =>
      obtain ⟨c, k3⟩ := ck
      simp only [hrk] at h
      obtain ⟨hlen, hspec⟩ := IH _ _ _ _ h
      refine ⟨by rw [hlen, List.length_set], fun m x hx => ?_⟩
      rcases hspec m x hx with hfl | ⟨hmr, hget⟩
      · exact Or.inl hfl
      · by_cases hmp : m = pos
        · subst hmp
          rw [List.get?_set_eq] at hget
          cases hlg : l.get? m with
          | none => rw [hlg] at hget; exact Option.noConfusion hget
          | some y =>
            rw [hlg] at hget
            have hxc : x = c.toInt := by simpa using hget.symm
            subst hxc
            have hs := randomK_spec draws fuel k c k3 hrk
            rw [from_int_toInt c hs.2.1 hs.2.2.1 hs.2.2.2]
            exact Or.inl hs.1
        · rw [List.get?_set_ne c.toInt l (Ne.symm hmp)] at hget
          exact Or.inr
            ⟨fun hm => (List.mem_cons.mp hm).elim (fun he => hmp he) hmr, hget⟩

/-- Claim C10: every color returned by `RGB.random` has at least one channel
`≥ 20` (all-channels-below-20 colors, in particular black, are unreachable for
every draw sequence on which the call returns), and the floor carries to every
use of random colors: `shuffle`, `random_rain` without explicit targets, and
the defaulted start color of `slow_transition`. -/
theorem random_floor_everywhere :
    (∀ draws fuel c, RGB.random draws fuel = some c →
      20 ≤ c.r ∨ 20 ≤ c.g ∨ 20 ≤ c.b) ∧
    (∀ draws fuel l out, shuffle draws fuel l = some out →
      ∀ x ∈ out, 20 ≤ (RGB.from_int x).r ∨ 20 ≤ (RGB.from_int x).g ∨
        20 ≤ (RGB.from_int x).b) ∧
    (∀ draws fuel (l : List Nat) order out, order.Perm (List.range l.length) →
      random_rain draws fuel l order = some out →
      ∀ m, m < l.length → ∀ x, out.get? m = some x →
        20 ≤ (RGB.from_int x).r ∨ 20 ≤ (RGB.from_int x).g ∨
          20 ≤ (RGB.from_int x).b) ∧
    (∀ draws fuel c, slow_transition_start none draws fuel = some c →
      20 ≤ c.r ∨ 20 ≤ c.g ∨ 20 ≤ c.b) := by
  have hrand : ∀ draws fuel c, RGB.random draws fuel = some c →
      20 ≤ c.r ∨ 20 ≤ c.g ∨ 20 ≤ c.b := by
    intro draws fuel c h
    unfold RGB.random at h
    obtain ⟨⟨c2, k2⟩, hl, hc⟩ := Option.map_eq_some'.mp h
    have hs := randomK_spec draws fuel 0 c2 k2 hl
    have : c2 = c := hc
    subst this
    exact hs.1
  refine ⟨hrand, ?_, ?_, ?_⟩
  · intro draws fuel l out h x hx
    unfold shuffle at h
    obtain ⟨⟨vs, k2⟩, hl, hc⟩ := Option.map_eq_some'.mp h
    have hvs : vs = out := hc
    subst hvs
    exact randomPixels_floor draws fuel l.length 0 vs k2 hl x hx
  · intro draws fuel l order out hperm h m hm x hx
    unfold random_rain at h
    obtain ⟨⟨vs, k2⟩, hl, hc⟩ := Option.map_eq_some'.mp h
    have hvs : vs = out := hc
    subst hvs
    obtain ⟨hlen, hspec⟩ := rain_aux_spec draws fuel order 0 l vs k2 hl
    rcases hspec m x hx with hfl | ⟨hmr, _⟩
    · exact hfl
    · exact absurd (hperm.mem_iff.mpr (List.mem_range.mpr hm)) hmr
  · intro draws fuel c h
    exact hrand draws fuel c h

theorem random_floor_everywhere_witness :
    (20 ≤ (RGB.from_int 0xFFFFFF).r ∨ 20 ≤ (RGB.from_int 0xFFFFFF).g ∨
      20 ≤ (RGB.from_int 0xFFFFFF).b) ∧
    (20 ≤ (RGB.from_int 16777215).r ∨ 20 ≤ (RGB.from_int 16777215).g ∨
      20 ≤ (RGB.from_int 16777215).b) :=
  ⟨random_floor_everywhere.1 (fun _ => 0xFFFFFF) 1 (RGB.from_int 0xFFFFFF)
      (by decide),
   random_floor_everywhere.2.2.1 (fun _ => 0xFFFFFF) 1 [0] [0] [16777215]
      (by decide) (by decide) 0 (by decide) 16777215 (by decide)⟩

/-! ### slow_transition (claim C5) -/

theorem maxChannelDist_self (c : RGB) : maxChannelDist c c = 0 := by
  simp [maxChannelDist, Nat.dist_self]

theorem maxChannelDist_eq_zero {c t : RGB} (h : maxChannelDist c t = 0) : c = t := by
  obtain ⟨c1, c2, c3⟩ := c
  obtain ⟨t1, t2, t3⟩ := t
  simp only [maxChannelDist, Nat.dist] at h
  simp only [RGB.mk.injEq]
  omega

theorem maxChannelDist_pos {c t : RGB} (h : c ≠ t) : 0 < maxChannelDist c t := by
  rcases Nat.eq_zero_or_pos (maxChannelDist c t) with h0 | h1
  · exact absurd (maxChannelDist_eq_zero h0) h
  · exact h1

theorem close_in_dist (a b : Nat) : Nat.dist (close_in a b) b = Nat.dist a b - 1 := by
  simp only [close_in, Nat.dist]
  split_ifs <;> omega

theorem maxChannelDist_step (c t : RGB) :
    maxChannelDist (stepColor c t) t = maxChannelDist c t - 1 := by
  simp only [maxChannelDist, stepColor, close_in_dist]
  omega

theorem transitionColors_length : ∀ n (c t : RGB), maxChannelDist c t = n →
    (transitionColors c t).length = n := by
  intro n
  induction n using Nat.strong_induction_on with
  | _ n IH =>
    intro c t h
    rw [transitionColors]
    split_ifs with hct
    · subst hct
      rw [maxChannelDist_self] at h
      simp [h.symm]
    · have hpos : 0 < n := h ▸ maxChannelDist_pos hct
      have hstep : maxChannelDist (stepColor c t) t = n - 1 := by
        rw [maxChannelDist_step, h]
      rw [List.length_cons, IH (n - 1) (by omega) _ t hstep]
      omega

theorem transitionColors_getLast : ∀ n (c t : RGB), maxChannelDist c t = n →
    (c :: transitionColors c t).getLast? = some t := by
  intro n
  induction n using Nat.strong_induction_on with
  | _ n IH =>
    intro c t h
    rw [transitionColors]
    split_ifs with hct
    · subst hct
      rfl
    · rw [List.getLast?_cons_cons]
      have hpos : 0 < n := h ▸ maxChannelDist_pos hct
      exact IH (n - 1) (by omega) _ t (by rw [maxChannelDist_step, h])

/-- Claim C5: for every buffer and colors A, B, `slow_transition` terminates
with the buffer uniformly filled with B, performs a number of per-step fills
equal to the maximum channel distance between A and B, and every rendered
intermediate buffer is uniform (a single color at all positions). -/
theorem slow_transition_spec (l : List Nat) (A B : RGB) :
    (transitionColors A B).length = maxChannelDist A B ∧
    (∀ buf ∈ slow_transition l A B, ∃ col, buf = List.replicate l.length col) ∧
    (slow_transition l A B).getLast? = some (List.replicate l.length B.toInt) := by
  refine ⟨transitionColors_length _ A B rfl, ?_, ?_⟩
  · intro buf hbuf
    obtain ⟨col, _, heq⟩ := List.mem_map.mp hbuf
    exact ⟨col.toInt, heq.symm⟩
  · unfold slow_transition
    rw [List.getLast?_map, transitionColors_getLast _ A B rfl]
    rfl

theorem slow_transition_spec_witness :
    ∃ col, [0, 0] = List.replicate (([3, 7] : List Nat).length) col :=
  (slow_transition_spec [3, 7] (RGB.from_int 0) (RGB.from_int 0)).2.1 [0, 0]
    (by decide)

/-! ### Quicksort machinery: indexing and swap lemmas (claims C1, C2, C3) -/

theorem pyGet_pos (l : List Nat) (i : Int) (h : 0 ≤ i) :
    pyGet l i = l.get? i.toNat := by
  unfold pyGet
  rw [if_pos h]

theorem pyGet_some_lt (l : List Nat) (i : Int) (v : Nat)
    (h : pyGet l i = some v) : i < (l.length : Int) := by
  unfold pyGet at h
  split_ifs at h with h0 h1
  · by_contra hc
    rw [List.get?_eq_none.mpr (by omega)] at h
    exact Option.noConfusion h
  · omega

theorem pySet_of_bounds (l : List Nat) (i : Int) (v : Nat) (h0 : 0 ≤ i)
    (h1 : i < (l.length : Int)) : pySet l i v = some (l.set i.toNat v) := by
  unfold pySet
  rw [if_pos h0, if_pos (by omega)]

theorem pySwap_of_bounds (l : List Nat) (i j : Int) (vi vj : Nat)
    (h0 : 0 ≤ i) (h2 : 0 ≤ j)
    (hvi : l.get? i.toNat = some vi) (hvj : l.get? j.toNat = some vj) :
    pySwap l i j = some ((l.set i.toNat vj).set j.toNat vi) := by
  have h1 : i.toNat < l.length := by
    by_contra hc
    rw [List.get?_eq_none.mpr (by omega)] at hvi
    exact Option.noConfusion hvi
  have h3 : j.toNat < l.length := by
    by_contra hc
    rw [List.get?_eq_none.mpr (by omega)] at hvj
    exact Option.noConfusion hvj
  unfold pySwap
  rw [pyGet_pos l i h0, pyGet_pos l j h2, hvi, hvj]
  simp only [Option.bind_eq_bind, Option.some_bind]
  rw [pySet_of_bounds l i vj h0 (by omega)]
  simp only [Option.some_bind]
  rw [pySet_of_bounds _ j vi h2 (by simp only [List.length_set]; omega)]

theorem set_self_of_get? (v : Nat) : ∀ (l : List Nat) (n : Nat),
    l.get? n = some v → l.set n v = l := by
  intro l
  induction l with
  | nil => intro n h; exact Option.noConfusion h
  | cons x t IH =>
    intro n h
    cases n with
    | zero =>
      simp only [List.get?] at h
      simp only [List.set, Option.some.injEq] at h ⊢
      rw [h]
    | succ n =>
      simp only [List.get?] at h
      simp only [List.set]
      rw [IH n h]

theorem cons_set_perm (x : Nat) : ∀ (t : List Nat) (b : Nat) (vb : Nat),
    t.get? b = some vb → (vb :: t.set b x).Perm (x :: t) := by
  intro t
  induction t with
  | nil => intro b vb h; exact Option.noConfusion h
  | cons y t IH =>
    intro b vb h
    cases b with
    | zero =>
      simp only [List.get?, Option.some.injEq] at h
      simp only [List.set]
      rw [← h]
      exact List.Perm.swap x y t
    | succ b =>
      simp only [List.get?] at h
      simp only [List.set]
      refine List.Perm.trans (List.Perm.swap y vb (t.set b x)) ?_
      exact List.Perm.trans (List.Perm.cons y (IH b vb h)) (List.Perm.swap x y t)

theorem set_set_perm_lt : ∀ (l : List Nat) (a b : Nat) (va vb : Nat), a < b →
    l.get? a = some va → l.get? b = some vb →
    ((l.set a vb).set b va).Perm l := by
  intro l
  induction l with
  | nil => intro a b va vb hab ha hb; exact Option.noConfusion ha
  | cons x t IH =>
    intro a b va vb hab ha hb
    cases a with
    | zero =>
      cases b with
      | zero => omega
      | succ b =>
        simp only [List.get?, Option.some.injEq] at ha hb
        simp only [List.set]
        rw [← ha]
        exact cons_set_perm x t b vb hb
    | succ a =>
      cases b with
      | zero => omega
      | succ b =>
        simp only [List.get?] at ha hb
        simp only [List.set]
        exact List.Perm.cons x (IH a b va vb (by omega) ha hb)

theorem set_set_perm (l : List Nat) (a b : Nat) (va vb : Nat)
    (ha : l.get? a = some va) (hb : l.get? b = some vb) :
    ((l.set a vb).set b va).Perm l := by
  rcases lt_trichotomy a b with hlt | heq | hgt
  · exact set_set_perm_lt l a b va vb hlt ha hb
  · subst heq
    rw [ha] at hb
    have hv : va = vb := Option.some.inj hb
    subst hv
    rw [List.set_set, set_self_of_get? va l a ha]
  · rw [List.set_comm _ _ _ (by omega)]
    exact set_set_perm_lt l b a vb va hgt hb ha

/-! ### Scan specifications -/

theorem scanUp_spec (l : List Nat) (pred : Nat → Bool) :
    ∀ (d : Nat) (i : Int) (m : Nat), m - i.toNat = d → 0 ≤ i → i ≤ (m : Int) →
    (∃ w, l.get? m = some w ∧ pred w = false) →
    ∃ r : { r : Int // i ≤ r }, scanUp l pred i = .ok r ∧ 0 ≤ r.1 ∧
      (∃ v, l.get? r.1.toNat = some v ∧ pred v = false) ∧
      (∀ m2 : Nat, i ≤ (m2 : Int) → (m2 : Int) < r.1 →
        ∀ v, l.get? m2 = some v → pred v = true) ∧
      (∀ m2 : Nat, i ≤ (m2 : Int) →
        (∃ v, l.get? m2 = some v ∧ pred v = false) → r.1 ≤ (m2 : Int)) := by
  intro d
  induction d using Nat.strong_induction_on with
  | _ d IH =>
    rintro i m hd h0 him ⟨w, hw, hpw⟩
    have hmlen : m < l.length := by
      by_contra hc
      rw [List.get?_eq_none.mpr (by omega)] at hw
      exact Option.noConfusion hw
    obtain ⟨v, hv⟩ : ∃ v, l.get? i.toNat = some v := by
      cases hx : l.get? i.toNat with
      | none => rw [List.get?_eq_none] at hx; omega
      | some v => exact ⟨v, rfl⟩
    have hpg : pyGet l i = some v := by rw [pyGet_pos l i h0]; exact hv
    by_cases hpv : pred v = true
    · have hne : i.toNat ≠ m := by
        intro he
        rw [he] at hv
        rw [hv] at hw
        rw [Option.some.inj hw] at hpv
        rw [hpw] at hpv
        exact Bool.noConfusion hpv
      obtain ⟨r', heq', h0r', hstop', hpass', hmin'⟩ :=
        IH (m - (i + 1).toNat) (by omega) (i + 1) m rfl (by omega) (by omega)
          ⟨w, hw, hpw⟩
      refine ⟨⟨r'.1, le_trans (by omega) r'.2⟩, ?_, h0r', hstop', ?_, ?_⟩
      · rw [scanUp]
        split
        · next h => rw [hpg] at h; exact Option.noConfusion h
        · next v2 h =>
            rw [hpg] at h
            have hv2 : v2 = v := (Option.some.inj h).symm
            subst hv2
            rw [if_pos hpv, heq']
      · intro m2 h2i h2r v2 hv2
        by_cases he : (m2 : Int) = i
        · have hm2 : m2 = i.toNat := by omega
          rw [hm2] at hv2
          rw [hv] at hv2
          rw [Option.some.inj hv2] at hpv
          exact hpv
        · exact hpass' m2 (by omega) h2r v2 hv2
      · intro m2 h2i hstop2
        by_cases he : (m2 : Int) = i
        · obtain ⟨v2, hv2, hpv2⟩ := hstop2
          have hm2 : m2 = i.toNat := by omega
          rw [hm2] at hv2
          rw [hv] at hv2
          rw [Option.some.inj hv2] at hpv
          rw [hpv] at hpv2
          exact Bool.noConfusion hpv2
        · exact hmin' m2 (by omega) hstop2
    · have hpvf : pred v = false := by
        revert hpv
        cases pred v <;> simp
      refine ⟨⟨i, le_refl i⟩, ?_, h0, ⟨v, ?_, hpvf⟩, ?_, ?_⟩
      · rw [scanUp]
        split
        · next h => rw [hpg] at h; exact Option.noConfusion h
        · next v2 h =>
            rw [hpg] at h
            have hv2 : v2 = v := (Option.some.inj h).symm
            subst hv2
            rw [if_neg (by simp [hpvf])]
      · exact hv
      · intro m2 h2i h2r v2 hv2
        have h2r2 : (m2 : Int) < i := h2r
        omega
      · intro m2 h2i hstop2
        exact h2i

theorem scanDown_spec (l : List Nat) (pred : Nat → Bool) :
    ∀ (d : Nat) (j : Int) (m : Nat), j.toNat - m = d → (m : Int) ≤ j →
    j < (l.length : Int) →
    (∃ w, l.get? m = some w ∧ pred w = false) →
    ∃ r : { r : Int // r ≤ j }, scanDown l pred j = .ok r ∧ (m : Int) ≤ r.1 ∧
      (∃ v, l.get? r.1.toNat = some v ∧ pred v = false) ∧
      (∀ m2 : Nat, r.1 < (m2 : Int) → (m2 : Int) ≤ j →
        ∀ v, l.get? m2 = some v → pred v = true) ∧
      (∀ m2 : Nat, (m2 : Int) ≤ j →
        (∃ v, l.get? m2 = some v ∧ pred v = false) → (m2 : Int) ≤ r.1) := by
  intro d
  induction d using Nat.strong_induction_on with
  | _ d IH =>
    rintro j m hd hmj hjlen ⟨w, hw, hpw⟩
    have h0j : 0 ≤ j := le_trans (by omega) hmj
    obtain ⟨v, hv⟩ : ∃ v, l.get? j.toNat = some v := by
      cases hx : l.get? j.toNat with
      | none => rw [List.get?_eq_none] at hx; omega
      | some v => exact ⟨v, rfl⟩
    have hpg : pyGet l j = some v := by rw [pyGet_pos l j h0j]; exact hv
    by_cases hpv : pred v = true
    · have hne : j.toNat ≠ m := by
        intro he
        rw [he] at hv
        rw [hv] at hw
        rw [Option.some.inj hw] at hpv
        rw [hpw] at hpv
        exact Bool.noConfusion hpv
      obtain ⟨r', heq', hmr', hstop', hpass', hmax'⟩ :=
        IH ((j - 1).toNat - m) (by omega) (j - 1) m rfl (by omega) (by omega)
          ⟨w, hw, hpw⟩
      refine ⟨⟨r'.1, le_trans r'.2 (by omega)⟩, ?_, hmr', hstop', ?_, ?_⟩
      · rw [scanDown]
        split
        · next h => rw [hpg] at h; exact Option.noConfusion h
        · next v2 h =>
            rw [hpg] at h
            have hv2 : v2 = v := (Option.some.inj h).symm
            subst hv2
            rw [if_pos hpv, heq']
      · intro m2 h2r h2j v2 hv2
        by_cases he : (m2 : Int) = j
        · have hm2 : m2 = j.toNat := by omega
          rw [hm2] at hv2
          rw [hv] at hv2
          rw [Option.some.inj hv2] at hpv
          exact hpv
        · exact hpass' m2 h2r (by omega) v2 hv2
      · intro m2 h2j hstop2
        by_cases he : (m2 : Int) = j
        · obtain ⟨v2, hv2, hpv2⟩ := hstop2
          have hm2 : m2 = j.toNat := by omega
          rw [hm2] at hv2
          rw [hv] at hv2
          rw [Option.some.inj hv2] at hpv
          rw [hpv] at hpv2
          exact Bool.noConfusion hpv2
        · exact hmax' m2 (by omega) hstop2
    · have hpvf : pred v = false := by
        revert hpv
        cases pred v <;> simp
      refine ⟨⟨j, le_refl j⟩, ?_, hmj, ⟨v, ?_, hpvf⟩, ?_, ?_⟩
      · rw [scanDown]
        split
        · next h => rw [hpg] at h; exact Option.noConfusion h
        · next v2 h =>
            rw [hpg] at h
            have hv2 : v2 = v := (Option.some.inj h).symm
            subst hv2
            rw [if_neg (by simp [hpvf])]
      · exact hv
      · intro m2 h2r h2j v2 hv2
        have h2r2 : j < (m2 : Int) := h2r
        omega
      · intro m2 h2j hstop2
        exact h2j

/-! ### Partition loop specification -/

theorem ploop_spec (lt : RGB → RGB → Bool) (p : RGB) (lo hi : Int) :
    ∀ (d : Nat) (l : List Nat) (i j : Int), (j - i + 2).toNat = d →
    0 ≤ lo → hi < (l.length : Int) → lo ≤ i → j ≤ hi →
    (i ≤ j → ∃ m : Nat, i ≤ (m : Int) ∧ (m : Int) ≤ hi ∧
      ∃ v, l.get? m = some v ∧ lt (RGB.from_int v) p = false) →
    (i ≤ j → ∃ m : Nat, lo ≤ (m : Int) ∧ (m : Int) ≤ j ∧
      ∃ v, l.get? m = some v ∧ lt p (RGB.from_int v) = false) →
    (∀ m : Nat, lo ≤ (m : Int) → (m : Int) < i → ∀ v, l.get? m = some v →
      lt (RGB.from_int v) p = true ∨ lt p (RGB.from_int v) = false) →
    (∀ m : Nat, j < (m : Int) → (m : Int) ≤ hi → ∀ v, l.get? m = some v →
      lt p (RGB.from_int v) = true ∨ lt (RGB.from_int v) p = false) →
    ∃ l2 i2 j2, ploop l lt p i j = .ok (l2, i2, j2) ∧
      l2.Perm l ∧
      (∀ m : Nat, ((m : Int) < lo ∨ hi < (m : Int)) → l2.get? m = l.get? m) ∧
      i ≤ i2 ∧ j2 ≤ j ∧ j2 < i2 ∧
      (∀ m : Nat, lo ≤ (m : Int) → (m : Int) < i2 → ∀ v, l2.get? m = some v →
        lt (RGB.from_int v) p = true ∨ lt p (RGB.from_int v) = false) ∧
      (∀ m : Nat, j2 < (m : Int) → (m : Int) ≤ hi → ∀ v, l2.get? m = some v →
        lt p (RGB.from_int v) = true ∨ lt (RGB.from_int v) p = false) ∧
      ((i ≤ j ∧ ∃ m : Nat, i ≤ (m : Int) ∧ (m : Int) ≤ j ∧
          ∃ v, l.get? m = some v ∧ lt (RGB.from_int v) p = false ∧
            lt p (RGB.from_int v) = false) →
        i + 1 ≤ i2 ∧ j2 ≤ j - 1) := by
  intro d
  induction d using Nat.strong_induction_on with
  | _ d IH =>
    intro l i j hd hlo hlen hloi hjhi Hstop1 Hstop2 HL HR
    by_cases hij : i ≤ j
    · obtain ⟨m1, hm1i, hm1hi, v1, hv1, hp1⟩ := Hstop1 hij
      obtain ⟨m2, hm2lo, hm2j, v2, hv2, hp2⟩ := Hstop2 hij
      obtain ⟨i2s, hequ, h0i2, hstopU, hpassU, hminU⟩ :=
        scanUp_spec l (fun v => lt (RGB.from_int v) p) (m1 - i.toNat) i m1 rfl
          (by omega) hm1i ⟨v1, hv1, hp1⟩
      obtain ⟨j2s, heqd, hm2J2, hstopD, hpassD, hmaxD⟩ :=
        scanDown_spec l (fun v => lt p (RGB.from_int v)) (j.toNat - m2) j m2 rfl
          hm2j (by omega) ⟨v2, hv2, hp2⟩
      have hiI2 : i ≤ i2s.1 := i2s.2
      have hJ2j : j2s.1 ≤ j := j2s.2
      have hI2m1 : i2s.1 ≤ (m1 : Int) := hminU m1 hm1i ⟨v1, hv1, hp1⟩
      have hI2hi : i2s.1 ≤ hi := le_trans hI2m1 hm1hi
      have h0J2 : 0 ≤ j2s.1 := le_trans (by omega) hm2J2
      have hloJ2 : lo ≤ j2s.1 := le_trans hm2lo hm2J2
      obtain ⟨u, hu, hpu⟩ := hstopU
      obtain ⟨wv, hwv, hpwv⟩ := hstopD
      by_cases hij2 : i2s.1 ≤ j2s.1
      · -- swap branch
        obtain ⟨l3, hl3⟩ : ∃ l3, l3 = (l.set i2s.1.toNat wv).set j2s.1.toNat u :=
          ⟨_, rfl⟩
        have hswap : pySwap l i2s.1 j2s.1 = some l3 := by
          rw [hl3]
          exact pySwap_of_bounds l i2s.1 j2s.1 u wv h0i2 h0J2 hu hwv
        have hlen3 : l3.length = l.length := by
          rw [hl3, List.length_set, List.length_set]
        have huw : i2s.1.toNat = j2s.1.toNat → u = wv := by
          intro he
          rw [he] at hu
          rw [hu] at hwv
          exact Option.some.inj hwv
        have hl3J2 : l3.get? j2s.1.toNat = some u := by
          rw [hl3, List.get?_set_eq]
          by_cases he : i2s.1.toNat = j2s.1.toNat
          · rw [← he, List.get?_set_eq, hu]
            rfl
          · rw [List.get?_set_ne wv l he, hwv]
            rfl
        have hl3I2 : l3.get? i2s.1.toNat = some wv := by
          by_cases he : i2s.1.toNat = j2s.1.toNat
          · rw [he, hl3J2, huw he]
          · rw [hl3, List.get?_set_ne u _ (fun hx => he hx.symm), List.get?_set_eq,
              hu]
            rfl
        have hl3get : ∀ m : Nat, m ≠ i2s.1.toNat → m ≠ j2s.1.toNat →
            l3.get? m = l.get? m := by
          intro m hmi hmj
          rw [hl3, List.get?_set_ne u _ (fun hx => hmj hx.symm),
            List.get?_set_ne wv l (fun hx => hmi hx.symm)]
        have hult : lt (RGB.from_int u) p = false := hpu
        have hwlt : lt p (RGB.from_int wv) = false := hpwv
        have hI2n : ((i2s.1.toNat : Nat) : Int) = i2s.1 := Int.toNat_of_nonneg h0i2
        have hJ2n : ((j2s.1.toNat : Nat) : Int) = j2s.1 := Int.toNat_of_nonneg h0J2
        obtain ⟨l2, i2, j2, heq2, hperm2, hframe2, hii2, hjj2, hji2, HL2, HR2, _⟩ :=
          IH ((j2s.1 - 1) - (i2s.1 + 1) + 2).toNat
            (by clear * - hd hiI2 hJ2j hij hij2; omega) l3 (i2s.1 + 1)
            (j2s.1 - 1) rfl hlo (by rw [hlen3]; exact hlen)
            (by clear * - hloi hiI2; omega) (by clear * - hJ2j hjhi; omega)
            (by
              intro hb
              exact ⟨j2s.1.toNat, by omega, by omega, u, hl3J2, hult⟩)
            (by
              intro hb
              exact ⟨i2s.1.toNat, by omega, by omega, wv, hl3I2, hwlt⟩)
            (by
              intro m hmlo hmI v hv
              by_cases hmI2 : (m : Int) = i2s.1
              · have hm : m = i2s.1.toNat := by omega
                rw [hm, hl3I2] at hv
                rw [← Option.some.inj hv]
                exact Or.inr hwlt
              · have hne1 : m ≠ i2s.1.toNat := by omega
                have hne2 : m ≠ j2s.1.toNat := by omega
                rw [hl3get m hne1 hne2] at hv
                by_cases hmi : (m : Int) < i
                · exact HL m hmlo hmi v hv
                · exact Or.inl (hpassU m (by omega) (by omega) v hv)
            )
            (by
              intro m hmJ hmhi v hv
              by_cases hmJ2 : (m : Int) = j2s.1
              · have hm : m = j2s.1.toNat := by omega
                rw [hm, hl3J2] at hv
                rw [← Option.some.inj hv]
                exact Or.inr hult
              · have hne1 : m ≠ i2s.1.toNat := by omega
                have hne2 : m ≠ j2s.1.toNat := by omega
                rw [hl3get m hne1 hne2] at hv
                by_cases hmj : (m : Int) ≤ j
                · exact Or.inl (hpassD m (by omega) hmj v hv)
                · exact HR m (by omega) hmhi v hv
            )
        refine ⟨l2, i2, j2, ?_,
          hperm2.trans (by rw [hl3]; exact set_set_perm l _ _ u wv hu hwv),
          ?_, by omega, by omega, hji2, HL2, HR2, fun _ => by omega⟩
        · rw [ploop, dif_pos hij]
          split
          · next e he =>
              rw [hequ] at he
              exact Except.noConfusion he
          · next i2x hi2x =>
              rw [hequ] at hi2x
              have : i2s = i2x := Except.ok.inj hi2x
              subst this
              split
              · next e he =>
                  rw [heqd] at he
                  exact Except.noConfusion he
              · next j2x hj2x =>
                  rw [heqd] at hj2x
                  have : j2s = j2x := Except.ok.inj hj2x
                  subst this
                  rw [dif_pos hij2]
                  split
                  · next he =>
                      rw [hswap] at he
                      exact Option.noConfusion he
                  · next l3x hl3x =>
                      rw [hswap] at hl3x
                      have : l3 = l3x := Option.some.inj hl3x
                      subst this
                      exact heq2
        · intro m hm
          rw [hframe2 m (by omega)]
          exact hl3get m (by omega) (by omega)
      · -- no-swap branch: the scans crossed
        refine ⟨l, i2s.1, j2s.1, ?_, List.Perm.refl l, fun _ _ => rfl, hiI2, hJ2j,
          by omega, ?_, ?_, ?_⟩
        · rw [ploop, dif_pos hij]
          split
          · next e he =>
              rw [hequ] at he
              exact Except.noConfusion he
          · next i2x hi2x =>
              rw [hequ] at hi2x
              have : i2s = i2x := Except.ok.inj hi2x
              subst this
              split
              · next e he =>
                  rw [heqd] at he
                  exact Except.noConfusion he
              · next j2x hj2x =>
                  rw [heqd] at hj2x
                  have : j2s = j2x := Except.ok.inj hj2x
                  subst this
                  rw [dif_neg hij2]
        · intro m hmlo hmI v hv
          by_cases hmi : (m : Int) < i
          · exact HL m hmlo hmi v hv
          · exact Or.inl (hpassU m (by omega) hmI v hv)
        · intro m hmJ hmhi v hv
          by_cases hmj : (m : Int) ≤ j
          · exact Or.inl (hpassD m hmJ hmj v hv)
          · exact HR m (by omega) hmhi v hv
        · rintro ⟨hij3, mB, hmBi, hmBj, vB, hvB, hpB1, hpB2⟩
          have h1 : i2s.1 ≤ (mB : Int) := hminU mB hmBi ⟨vB, hvB, hpB1⟩
          have h2 : (mB : Int) ≤ j2s.1 := hmaxD mB hmBj ⟨vB, hvB, hpB2⟩
          omega
    · refine ⟨l, i, j, ?_, List.Perm.refl l, fun _ _ => rfl, le_refl i, le_refl j,
        by omega, HL, HR, fun hb => absurd hb.1 hij⟩
      rw [ploop, dif_neg hij]

/-! ### Segment lemmas and strict-weak-order facts -/

theorem seg_get? (l : List Nat) (a b k : Nat) (hk : k < b + 1 - a) :
    (seg l a b).get? k = l.get? (a + k) := by
  unfold seg
  rw [List.get?_take hk, List.get?_drop]

theorem mem_seg_of_get? (l : List Nat) (a b m : Nat) (v : Nat)
    (ham : a ≤ m) (hmb : m ≤ b) (h : l.get? m = some v) : v ∈ seg l a b := by
  have hk : m - a < b + 1 - a := by omega
  have := seg_get? l a b (m - a) hk
  rw [show a + (m - a) = m by omega, h] at this
  exact List.get?_mem this

theorem get?_of_mem_seg (l : List Nat) (a b : Nat) (v : Nat)
    (h : v ∈ seg l a b) : ∃ m, a ≤ m ∧ m ≤ b ∧ l.get? m = some v := by
  obtain ⟨k, hk⟩ := List.mem_iff_get?.mp h
  have hklen : k < (seg l a b).length := by
    by_contra hc
    rw [List.get?_eq_none.mpr (by omega)] at hk
    exact Option.noConfusion hk
  have hlen : (seg l a b).length ≤ b + 1 - a := by
    unfold seg
    rw [List.length_take]
    omega
  have hkb : k < b + 1 - a := by omega
  rw [seg_get? l a b k hkb] at hk
  exact ⟨a + k, by omega, by omega, hk⟩

theorem seg_congr (l' l : List Nat) (a b : Nat) (hlen : l'.length = l.length)
    (h : ∀ m, a ≤ m → m ≤ b → l'.get? m = l.get? m) : seg l' a b = seg l a b := by
  apply List.ext_get?
  intro k
  by_cases hk : k < b + 1 - a
  · rw [seg_get? l' a b k hk, seg_get? l a b k hk]
    exact h (a + k) (by omega) (by omega)
  · have h1 : (seg l' a b).length ≤ k := by
      unfold seg
      rw [List.length_take]
      omega
    have h2 : (seg l a b).length ≤ k := by
      unfold seg
      rw [List.length_take]
      omega
    rw [List.get?_eq_none.mpr h1, List.get?_eq_none.mpr h2]

theorem seg_decomp (l : List Nat) (a b : Nat) (hab : a ≤ b + 1) :
    l = l.take a ++ seg l a b ++ l.drop (b + 1) := by
  unfold seg
  have h1 : List.drop (b + 1) l = List.drop (b + 1 - a) (List.drop a l) := by
    rw [List.drop_drop]
    congr 1
    omega
  rw [List.append_assoc, h1, List.take_append_drop, List.take_append_drop]

theorem seg_perm_of_perm_frame (l' l : List Nat) (a b : Nat)
    (hp : l'.Perm l)
    (hf : ∀ m : Nat, (m < a ∨ b < m) → l'.get? m = l.get? m) :
    (seg l' a b).Perm (seg l a b) := by
  have hlen : l'.length = l.length := hp.length_eq
  by_cases hab : a ≤ b + 1
  · have htake : l'.take a = l.take a := by
      apply List.ext_get?
      intro k
      by_cases hk : k < a
      · rw [List.get?_take hk, List.get?_take hk]
        exact hf k (Or.inl hk)
      · rw [List.get?_eq_none.mpr (by rw [List.length_take]; omega),
          List.get?_eq_none.mpr (by rw [List.length_take]; omega)]
    have hdrop : l'.drop (b + 1) = l.drop (b + 1) := by
      apply List.ext_get?
      intro k
      rw [List.get?_drop, List.get?_drop]
      exact hf (b + 1 + k) (Or.inr (by omega))
    have hd' := seg_decomp l' a b hab
    have hd := seg_decomp l a b hab
    rw [← Multiset.coe_eq_coe]
    have hm : (l' : Multiset Nat) = (l : Multiset Nat) :=
      Multiset.coe_eq_coe.mpr hp
    rw [hd', hd, htake, hdrop] at hm
    rw [← Multiset.coe_add, ← Multiset.coe_add, ← Multiset.coe_add,
      ← Multiset.coe_add] at hm
    have := add_right_cancel hm
    exact add_left_cancel this
  · have h1 : seg l' a b = [] := by
      unfold seg
      rw [show b + 1 - a = 0 by omega]
      rfl
    have h2 : seg l a b = [] := by
      unfold seg
      rw [show b + 1 - a = 0 by omega]
      rfl
    rw [h1, h2]

theorem swo_asymm {lt : RGB → RGB → Bool} (h : IsSWO lt) :
    ∀ a b, lt a b = true → lt b a = false := by
  intro a b hab
  by_contra hba
  have hba2 : lt b a = true := by
    revert hba
    cases lt b a <;> simp
  have := h.2.1 a b a hab hba2
  rw [h.1 a] at this
  exact Bool.noConfusion this

theorem swo_forward {lt : RGB → RGB → Bool} (h : IsSWO lt) :
    ∀ a b c, lt a c = true → lt a b = true ∨ lt b c = true := by
  intro a b c hac
  by_cases hab : lt a b = true
  · exact Or.inl hab
  · by_cases hbc : lt b c = true
    · exact Or.inr hbc
    · have hab2 : lt a b = false := by
        revert hab
        cases lt a b <;> simp
      have hbc2 : lt b c = false := by
        revert hbc
        cases lt b c <;> simp
      have hba : lt b a = false := by
        by_contra hc
        have hba2 : lt b a = true := by
          revert hc
          cases lt b a <;> simp
        have := h.2.1 b a c hba2 hac
        rw [hbc2] at this
        exact Bool.noConfusion this
      have hcb : lt c b = false := by
        by_contra hc
        have hcb2 : lt c b = true := by
          revert hc
          cases lt c b <;> simp
        have := h.2.1 a c b hac hcb2
        rw [hab2] at this
        exact Bool.noConfusion this
      have := (h.2.2 a b c hab2 hba hbc2 hcb).1
      rw [hac] at this
      exact Bool.noConfusion this

/-! ### Quicksort specification -/

theorem qsAux_spec (lt : RGB → RGB → Bool) (rnd : Nat → Nat)
    (hirr : ∀ c, lt c c = false) :
    ∀ (fuel : Nat) (l : List Nat) (k : Nat) (lo hi : Int),
    0 ≤ lo → hi < (l.length : Int) → (hi - lo + 1).toNat < fuel →
    ∃ l2 k2, quicksortAux lt rnd fuel l k lo hi = .ok (l2, k2) ∧
      l2.Perm l ∧
      (∀ m : Nat, ((m : Int) < lo ∨ hi < (m : Int)) → l2.get? m = l.get? m) ∧
      (IsSWO lt →
        ∀ m1 m2 : Nat, lo ≤ (m1 : Int) → m1 ≤ m2 → (m2 : Int) ≤ hi →
        ∀ v1 v2, l2.get? m1 = some v1 → l2.get? m2 = some v2 →
          lt (RGB.from_int v2) (RGB.from_int v1) = false) := by
  intro fuel
  induction fuel with
  | zero =>
    intro l k lo hi hlo hlen hfuel
    exact absurd hfuel (by omega)
  | succ fuel IH =>
    intro l k lo hi hlo hlen hfuel
    by_cases hrange : lo ≥ hi
    · refine ⟨l, k, ?_, List.Perm.refl l, fun _ _ => rfl, ?_⟩
      · rw [quicksortAux, if_pos hrange]
      · intro _ m1 m2 h1 h12 h2 v1 v2 hv1 hv2
        have hm : m1 = m2 := by omega
        subst hm
        rw [hv1] at hv2
        rw [Option.some.inj hv2]
        exact hirr _
    · have hsz : 0 < (hi - lo + 1).toNat := by omega
      have hmod : rnd k % (hi - lo + 1).toNat < (hi - lo + 1).toNat :=
        Nat.mod_lt _ hsz
      obtain ⟨pidx, hpidx⟩ : ∃ pidx : Int,
          pidx = lo + ((rnd k % (hi - lo + 1).toNat : Nat) : Int) := ⟨_, rfl⟩
      have hpidx0 : 0 ≤ pidx := by omega
      have hpidxhi : pidx ≤ hi := by omega
      have hpidxn : ((pidx.toNat : Nat) : Int) = pidx := Int.toNat_of_nonneg hpidx0
      obtain ⟨pv, hpv⟩ : ∃ pv, l.get? pidx.toNat = some pv := by
        cases hx : l.get? pidx.toNat with
        | none => rw [List.get?_eq_none] at hx; omega
        | some pv => exact ⟨pv, rfl⟩
      have hpg : pyGet l pidx = some pv := by
        rw [pyGet_pos l pidx hpidx0]
        exact hpv
      obtain ⟨lm, I, J, heqp, hpermp, hframep, hloI, hJhi, hJI, HLp, HRp, hC7⟩ :=
        ploop_spec lt (RGB.from_int pv) lo hi (hi - lo + 2).toNat l lo hi rfl hlo
          hlen (le_refl lo) (le_refl hi)
          (fun _ => ⟨pidx.toNat, by omega, by omega, pv, hpv, hirr _⟩)
          (fun _ => ⟨pidx.toNat, by omega, by omega, pv, hpv, hirr _⟩)
          (fun m hm1 hm2 _ _ => absurd hm2 (by omega))
          (fun m hm1 hm2 _ _ => absurd hm1 (by omega))
      obtain ⟨hIlo, hJhi2⟩ := hC7 ⟨by omega,
        pidx.toNat, by omega, by omega, pv, hpv, hirr _, hirr _⟩
      have hlenm : lm.length = l.length := hpermp.length_eq
      obtain ⟨l3, k3, heq3, hperm3, hframe3, sorted3⟩ :=
        IH lm (k + 1) lo J hlo (by omega) (by omega)
      have hlen3 : l3.length = lm.length := hperm3.length_eq
      obtain ⟨l4, k4, heq4, hperm4, hframe4, sorted4⟩ :=
        IH l3 k3 I hi (by omega) (by omega) (by omega)
      refine ⟨l4, k4, ?_, (hperm4.trans hperm3).trans hpermp, ?_, ?_⟩
      · rw [quicksortAux, if_neg (by omega), ← hpidx]
        split
        · next he =>
            rw [hpg] at he
            exact Option.noConfusion he
        · next pv2 hpv2 =>
            rw [hpg] at hpv2
            have hpe : pv = pv2 := Option.some.inj hpv2
            subst hpe
            split
            · next e he =>
                rw [heqp] at he
                exact Except.noConfusion he
            · next lmx Ix Jx hx =>
                rw [heqp] at hx
                have h1 := Except.ok.inj hx
                injection h1 with ha hbc
                injection hbc with hb hc
                subst ha
                subst hb
                subst hc
                split
                · next e he =>
                    rw [heq3] at he
                    exact Except.noConfusion he
                · next l3x k3x hx3 =>
                    rw [heq3] at hx3
                    have h2 := Except.ok.inj hx3
                    injection h2 with ha hb
                    subst ha
                    subst hb
                    exact heq4
      · intro m hm
        rw [hframe4 m (by omega), hframe3 m (by omega), hframep m (by omega)]
      · intro hswo m1 m2 hm1lo hm12 hm2hi v1 v2 hv1 hv2
        have hasym := swo_asymm hswo
        have hfwd := swo_forward hswo
        have hframe43 : ∀ m : Nat, (m : Int) < I → l4.get? m = l3.get? m :=
          fun m hm => hframe4 m (Or.inl hm)
        have hconvL : ∀ v : Nat,
            (lt (RGB.from_int v) (RGB.from_int pv) = true ∨
              lt (RGB.from_int pv) (RGB.from_int v) = false) →
            lt (RGB.from_int pv) (RGB.from_int v) = false := by
          intro v hdisj
          rcases hdisj with h | h
          · exact hasym _ _ h
          · exact h
        have hconvR : ∀ v : Nat,
            (lt (RGB.from_int pv) (RGB.from_int v) = true ∨
              lt (RGB.from_int v) (RGB.from_int pv) = false) →
            lt (RGB.from_int v) (RGB.from_int pv) = false := by
          intro v hdisj
          rcases hdisj with h | h
          · exact hasym _ _ h
          · exact h
        have htleft : ∀ mm : Nat, lo ≤ (mm : Int) → (mm : Int) < I →
            ∀ v, l4.get? mm = some v →
            lt (RGB.from_int pv) (RGB.from_int v) = false := by
          intro mm h1 h2 v hv
          rw [hframe43 mm h2] at hv
          by_cases hmmJ : (mm : Int) ≤ J
          · have hsp : (seg l3 lo.toNat J.toNat).Perm (seg lm lo.toNat J.toNat) :=
              seg_perm_of_perm_frame l3 lm lo.toNat J.toNat hperm3
                (fun m hm => hframe3 m (by omega))
            have hv3 : v ∈ seg l3 lo.toNat J.toNat :=
              mem_seg_of_get? l3 lo.toNat J.toNat mm v (by omega) (by omega) hv
            obtain ⟨mx, hmx1, hmx2, hmxv⟩ :=
              get?_of_mem_seg lm lo.toNat J.toNat v (hsp.mem_iff.mp hv3)
            exact hconvL v (HLp mx (by omega) (by omega) v hmxv)
          · rw [hframe3 mm (by omega)] at hv
            exact hconvL v (HLp mm h1 h2 v hv)
        have htright : ∀ mm : Nat, J < (mm : Int) → (mm : Int) ≤ hi →
            ∀ v, l4.get? mm = some v →
            lt (RGB.from_int v) (RGB.from_int pv) = false := by
          intro mm h1 h2 v hv
          by_cases hmmI : I ≤ (mm : Int)
          · have hseq : seg l3 I.toNat hi.toNat = seg lm I.toNat hi.toNat :=
              seg_congr l3 lm I.toNat hi.toNat (by omega)
                (fun m hm1 hm2 => hframe3 m (by omega))
            have hsp : (seg l4 I.toNat hi.toNat).Perm (seg l3 I.toNat hi.toNat) :=
              seg_perm_of_perm_frame l4 l3 I.toNat hi.toNat hperm4
                (fun m hm => hframe4 m (by omega))
            have hv4 : v ∈ seg l4 I.toNat hi.toNat :=
              mem_seg_of_get? l4 I.toNat hi.toNat mm v (by omega) (by omega) hv
            obtain ⟨mx, hmx1, hmx2, hmxv⟩ :=
              get?_of_mem_seg lm I.toNat hi.toNat v (hseq ▸ (hsp.mem_iff.mp hv4))
            exact hconvR v (HRp mx (by omega) (by omega) v hmxv)
          · rw [hframe43 mm (by omega), hframe3 mm (by omega)] at hv
            exact hconvR v (HRp mm h1 h2 v hv)
        by_cases hc1 : (m2 : Int) ≤ J
        · have hv1' := hv1
          have hv2' := hv2
          rw [hframe43 m1 (by omega)] at hv1'
          rw [hframe43 m2 (by omega)] at hv2'
          exact sorted3 hswo m1 m2 hm1lo hm12 hc1 v1 v2 hv1' hv2'
        · by_cases hc2 : I ≤ (m1 : Int)
          · exact sorted4 hswo m1 m2 hc2 hm12 hm2hi v1 v2 hv1 hv2
          · have hlft := htleft m1 hm1lo (by omega) v1 hv1
            have hrgt := htright m2 (by omega) hm2hi v2 hv2
            by_contra hcon
            have hcon2 : lt (RGB.from_int v2) (RGB.from_int v1) = true := by
              revert hcon
              cases lt (RGB.from_int v2) (RGB.from_int v1) <;> simp
            rcases hfwd (RGB.from_int v2) (RGB.from_int pv) (RGB.from_int v1) hcon2
              with h | h
            · rw [hrgt] at h
              exact Bool.noConfusion h
            · rw [hlft] at h
              exact Bool.noConfusion h

/-! ### Claims C1, C2, C3 -/

/-- Claim C2 counterexample: with the constant-true comparator (a comparator
with no ordering assumptions), `quicksort` on the buffer `[0, 0]` raises
`IndexError`: the upward scan runs past the end of the list.  So termination
without error does not hold for every boolean comparator. -/
theorem quicksort_const_true_errors :
    quicksort 3 [0, 0] (fun _ _ => true) (fun _ => 0) = .error .indexError := by
  simp [quicksort, quicksortAux, ploop, scanUp, pyGet, Except.map]

/-- Claim C2 (amended): for every comparator that is irreflexive on colors
(`lt c c = false` — in particular every strict weak ordering and the
constant-false comparator), `quicksort` over the whole buffer terminates
without error, for every buffer and every sequence of pivot draws, with
recursion depth at most the buffer length.  For comparators that report a
color less than itself this fails (see the counterexample). -/
theorem quicksort_irreflexive_terminates (l : List Nat) (lt : RGB → RGB → Bool)
    (rnd : Nat → Nat) (hirr : ∀ c, lt c c = false) :
    ∃ out, quicksort (l.length + 1) l lt rnd = .ok out := by
  obtain ⟨l2, k2, heq, _, _, _⟩ :=
    qsAux_spec lt rnd hirr (l.length + 1) l 0 0 ((l.length : Int) - 1)
      (by omega) (by omega) (by omega)
  refine ⟨l2, ?_⟩
  unfold quicksort
  rw [heq]
  rfl

theorem quicksort_irreflexive_terminates_witness :
    ∃ out, quicksort (([5, 9] : List Nat).length + 1) [5, 9] constFalse
      (fun _ => 0) = .ok out :=
  quicksort_irreflexive_terminates [5, 9] constFalse (fun _ => 0) (fun _ => rfl)

/-- Claim C3: for every buffer of length at least 2 and every sequence of
pivot draws, `quicksort` with the constant-false comparator terminates (no
infinite recursion, no unbounded loop, no error) and leaves the multiset of
buffer values unchanged. -/
theorem quicksort_const_false_spec (l : List Nat) (rnd : Nat → Nat)
    (h2 : 2 ≤ l.length) :
    ∃ out, quicksort (l.length + 1) l constFalse rnd = .ok out ∧
      (out : Multiset Nat) = (l : Multiset Nat) := by
  obtain ⟨l2, k2, heq, hperm, _, _⟩ :=
    qsAux_spec constFalse rnd (fun _ => rfl) (l.length + 1) l 0 0
      ((l.length : Int) - 1) (by omega) (by omega) (by omega)
  refine ⟨l2, ?_, Multiset.coe_eq_coe.mpr hperm⟩
  unfold quicksort
  rw [heq]
  rfl

theorem quicksort_const_false_spec_witness :
    2 ≤ ([4, 3, 7] : List Nat).length ∧
    ∃ out, quicksort (([4, 3, 7] : List Nat).length + 1) [4, 3, 7] constFalse
      (fun _ => 1) = .ok out ∧
      (out : Multiset Nat) = (([4, 3, 7] : List Nat) : Multiset Nat) :=
  ⟨by norm_num, quicksort_const_false_spec [4, 3, 7] (fun _ => 1) (by norm_num)⟩

theorem packedLt_swo : IsSWO packedLt := by
  refine ⟨?_, ?_, ?_⟩
  · intro a
    simp [packedLt]
  · intro a b c
    simp only [packedLt, decide_eq_true_eq]
    omega
  · intro a b c
    simp only [packedLt, decide_eq_false_iff_not, not_lt]
    omega

/-- Claim C1: for every buffer, every sequence of pivot draws, and every
comparator that is a valid strict weak ordering (in particular the
packed-value ascending comparator, see the witness), `quicksort` over the
whole buffer terminates with a buffer that is non-decreasing under the
comparator (no later element is less than an earlier one) and whose contents
are a permutation of the pre-sort contents. -/
theorem quicksort_swo_sorts (l : List Nat) (lt : RGB → RGB → Bool)
    (rnd : Nat → Nat) (hswo : IsSWO lt) :
    ∃ out, quicksort (l.length + 1) l lt rnd = .ok out ∧ out.Perm l ∧
      out.Pairwise (fun a b => lt (RGB.from_int b) (RGB.from_int a) = false) := by
  obtain ⟨l2, k2, heq, hperm, _, hsorted⟩ :=
    qsAux_spec lt rnd hswo.1 (l.length + 1) l 0 0 ((l.length : Int) - 1)
      (by omega) (by omega) (by omega)
  have hlen2 : l2.length = l.length := hperm.length_eq
  refine ⟨l2, ?_, hperm, ?_⟩
  · unfold quicksort
    rw [heq]
    rfl
  · rw [List.pairwise_iff_getElem]
    intro a b ha hb hab
    have hva : l2.get? a = some l2[a] := by
      rw [List.get?_eq_getElem?]
      exact List.getElem?_eq_getElem ha
    have hvb : l2.get? b = some l2[b] := by
      rw [List.get?_eq_getElem?]
      exact List.getElem?_eq_getElem hb
    exact hsorted hswo a b (by omega) (by omega) (by omega) l2[a] l2[b] hva hvb

theorem quicksort_swo_sorts_witness :
    ∃ out, quicksort (([9, 2, 5] : List Nat).length + 1) [9, 2, 5] packedLt
      (fun _ => 0) = .ok out ∧ out.Perm [9, 2, 5] ∧
      out.Pairwise
        (fun a b => packedLt (RGB.from_int b) (RGB.from_int a) = false) :=
  quicksort_swo_sorts [9, 2, 5] packedLt (fun _ => 0) packedLt_swo
